import Mathlib

set_option maxHeartbeats 1000000

/-!
Verification of the sentence-corpus generator and corrector of
`wyoming_vosk/sentences.py`.

The grammar expansion engine `sample_expression_with_output` is a Python
generator that threads a mutable dictionary (`used_substitutions`) through a
recursive enumeration.  Every invocation starts by deep-copying the incoming
dictionary (line 271), but the concatenation case merges children contexts
with `deepmerge.always_merger`, which mutates its first argument in place,
while `itertools.product` reuses the very same child objects across
combinations.  To capture these object-identity effects faithfully, the
embedding below threads an explicit heap of context objects: every call
allocates a fresh copy of its input context (the deep copy of line 271), and
each yielded triple records both the identity of the yielded object and a
snapshot of its value at the moment it is yielded.
-/

/-- Model of the `used_substitutions` dictionary:
`\x7b"lists": \x7b...\x7d, "exp_rules": \x7b...\x7d\x7d` plus the optional
`"_curr_exp_rule"` marker key.  Association lists keep Python dict insertion
order; list values are `Option String` because `text_value.value_out` is
`Optional[str]` in hassil. -/
structure Ctx where
  lists : List (String × Option String)
  exp_rules : List (String × String)
  curr_exp_rule : Option String
deriving DecidableEq, Repr

/-- The module-level default value of the `used_substitutions` parameter:
`\x7bLISTS_KEY: \x7b\x7d, EXP_RULES_KEY: \x7b\x7d\x7d`. -/
def defaultCtx : Ctx := ⟨[], [], none⟩

/-- Python dict assignment `d[k] = v`: update in place (keeping the key's
insertion position) or append a new key at the end. -/
def setKey (m : List (String × α)) (k : String) (v : α) : List (String × α) :=
  if m.any (fun p => p.1 == k) then
    m.map (fun p => if p.1 == k then (k, v) else p)
  else m ++ [(k, v)]

/-- `used_substitutions[LISTS_KEY][name] = v` (line 343 / 346). -/
def Ctx.setList (c : Ctx) (k : String) (v : Option String) : Ctx :=
  { c with lists := setKey c.lists k v }

/-- `used_substitutions[EXP_RULES_KEY][name] = v` (line 276). -/
def Ctx.setRule (c : Ctx) (k v : String) : Ctx :=
  { c with exp_rules := setKey c.exp_rules k v }

/-- `used_substitutions.update(\x7bCURR_EXP_RULE_KEY: name\x7d)` (line 362). -/
def Ctx.setCurr (c : Ctx) (v : Option String) : Ctx :=
  { c with curr_exp_rule := v }

/-- Python dict `update` of every key of `nxt` into `base`, as performed by
deepmerge's recursive dict merge: conflicting non-dict values are overridden
by the second argument. -/
def updAll (base nxt : List (String × α)) : List (String × α) :=
  nxt.foldl (fun acc p => setKey acc p.1 p.2) base

/-- Model of `deepmerge.always_merger.merge a b`: a deep union of the two
context dictionaries in which values of `b` win on key conflicts.  (In Python
this call additionally mutates `a` in place; the interpreter below accounts
for that by writing the merged value back to the first object's heap cell.) -/
def Ctx.merge (a b : Ctx) : Ctx :=
  { lists := updAll a.lists b.lists
    exp_rules := updAll a.exp_rules b.exp_rules
    curr_exp_rule := match b.curr_exp_rule with
      | some x => some x
      | none => a.curr_exp_rule }

/-- Grammar model (hassil expression tree), the four node kinds consumed by
`sample_expression_with_output`: text chunk, alternation / group sequence,
list reference and rule reference. -/
inductive Expression where
  | text (original_text : String)
  | alt (items : List Expression)
  | grp (items : List Expression)
  | listRef (list_name : String)
  | ruleRef (rule_name : String)

/-- One value entry of a `TextSlotList`: an input sub-expression plus the
optional declared canonical output. -/
structure TextSlotValue where
  text_in : Expression
  value_out : Option String

/-- `slot_lists`: mapping of list name to `TextSlotList` values. -/
abbrev SlotLists := List (String × List TextSlotValue)

/-- `expansion_rules`: mapping of rule name to rule body. -/
abbrev Rules := List (String × Expression)

/-- Errors the sampler can raise: `MissingListError`, `MissingRuleError`,
the `TypeError` raised by `functools.reduce` on an empty group, and
exhaustion of the recursion fuel of the model (standing for nontermination
of the Python recursion, which is not an expansion error). -/
inductive SErr where
  | missingList (name : String)
  | missingRule (name : String)
  | emptyGroup
  | fuelOut
deriving DecidableEq, Repr

/-- One yielded triple `(input_text, output_text_or_absent, context)`,
recording both the identity (`ctxId`) of the yielded context object and the
snapshot (`snap`) of its value at the moment of the yield. -/
structure Yield where
  inp : String
  out : Option String
  ctxId : Nat
  snap : Ctx
deriving DecidableEq, Repr

/-- The heap of live context dictionaries; indices are object identities. -/
abbrev Heap := List Ctx

/-- The whitespace class of Python's regex `\s` (ASCII part). -/
def isPySpace (c : Char) : Bool :=
  c = Char.ofNat 32 || c = Char.ofNat 9 || c = Char.ofNat 10 ||
  c = Char.ofNat 13 || c = Char.ofNat 11 || c = Char.ofNat 12

/-- Model of `hassil.util.normalize_whitespace`: every maximal run of
whitespace characters is collapsed to one single space. -/
def normWSChars : List Char → List Char
  | [] => []
  | [c] => if isPySpace c then [Char.ofNat 32] else [c]
  | c :: d :: rest =>
    if isPySpace c then
      if isPySpace d then normWSChars (d :: rest)
      else Char.ofNat 32 :: normWSChars (d :: rest)
    else c :: normWSChars (d :: rest)

/-- `normalize_whitespace` on strings. -/
def normWS (s : String) : String := ⟨normWSChars s.data⟩

/-- `itertools.product`: Cartesian product of the pools, leftmost pool
varying slowest. -/
def cartProd : List (List α) → List (List α)
  | [] => [[]]
  | p :: ps => p.flatMap (fun x => (cartProd ps).map (fun c => x :: c))

/-- Python truthiness of an `Optional[str]`: `None` and the empty string are
falsy. -/
def pyTruthyOS : Option String → Bool
  | none => false
  | some s => s != ""

/-- The group (concatenation) loop of lines 300-307: for each combination of
the pools, concatenate the input texts, concatenate the non-absent output
texts (both whitespace-normalized), and fold the children's current context
values with `always_merger.merge`.  The fold mutates the first child's
context object, so the merged value is written back to that object's heap
cell and the same object is yielded; a later combination reusing the same
first-child element therefore starts from the already-merged value. -/
def runCombos (h : Heap) : List (List Yield) → List Yield × Heap
  | [] => ([], h)
  | combo :: rest =>
    match combo with
    | [] => runCombos h rest
    | y0 :: ytl =>
      let merged := (ytl.map (fun y => h.getD y.ctxId defaultCtx)).foldl
        Ctx.merge (h.getD y0.ctxId defaultCtx)
      let h1 := h.set y0.ctxId merged
      (⟨normWS (String.join ((y0 :: ytl).map (fun y => y.inp))),
        some (normWS (String.join ((y0 :: ytl).filterMap (fun y => y.out)))),
        y0.ctxId, merged⟩ :: (runCombos h1 rest).1,
       (runCombos h1 rest).2)

/-- The `is_first_text` transformation of lines 326-343 applied to the
variants produced from one list entry: the first variant carries the entry's
declared output text, every later one an absent output, and every variant's
context records the list choice `list_name → value_out`. -/
def tagFirst (outS : String) (name : String) (vout : Option String) :
    List Yield → List Yield
  | [] => []
  | y :: ys =>
    ⟨y.inp, some outS, y.ctxId, y.snap.setList name vout⟩ ::
      ys.map (fun z => ⟨z.inp, none, z.ctxId, z.snap.setList name vout⟩)

/-- The heap effect of line 343: each yielded context object gets
`lists[list_name] = value_out` written into it. -/
def applyListWrites (name : String) (vout : Option String)
    (ys : List Yield) (h : Heap) : Heap :=
  ys.foldl (fun acc y =>
    acc.set y.ctxId ((acc.getD y.ctxId defaultCtx).setList name vout)) h

/-- The alternation loop (lines 281-288): children in declaration order,
each passed the alternation's own context object.  `go` is the recursive
call into the sampler at the next fuel level. -/
def sampleSeqF (go : Expression → Nat → Heap → Except SErr (List Yield × Heap)) :
    List Expression → Nat → Heap → Except SErr (List Yield × Heap)
  | [], _, h => .ok ([], h)
  | e :: rest, cid, h =>
    match go e cid h with
    | .error er => .error er
    | .ok (ys, h1) =>
      match sampleSeqF go rest cid h1 with
      | .error er => .error er
      | .ok (ys2, h2) => .ok (ys ++ ys2, h2)

/-- The materialization of the per-child generators performed by
`itertools.product` (lines 290-299): each child is drained completely, in
order, all with the group's own context object. -/
def samplePoolsF (go : Expression → Nat → Heap → Except SErr (List Yield × Heap)) :
    List Expression → Nat → Heap → Except SErr (List (List Yield) × Heap)
  | [], _, h => .ok ([], h)
  | e :: rest, cid, h =>
    match go e cid h with
    | .error er => .error er
    | .ok (ys, h1) =>
      match samplePoolsF go rest cid h1 with
      | .error er => .error er
      | .ok (ps, h2) => .ok (ys :: ps, h2)

/-- The `for text_value in text_list.values` loop of lines 324-352.  `cur`
is the object currently bound to the Python variable `used_substitutions`:
initially the list reference's own copy, and rebound by the inner `for` of
the truthy branch to the last yielded context of that entry. -/
def runValuesF (go : Expression → Nat → Heap → Except SErr (List Yield × Heap))
    (name : String) :
    List TextSlotValue → Nat → Heap → Except SErr (List Yield × Heap)
  | [], _, h => .ok ([], h)
  | tv :: rest, cur, h =>
    if pyTruthyOS tv.value_out then
      match go tv.text_in cur h with
      | .error er => .error er
      | .ok (ys, h1) =>
        let outS := tv.value_out.getD ""
        let ys2 := tagFirst outS name tv.value_out ys
        let h2 := applyListWrites name tv.value_out ys h1
        let cur2 := match ys.getLast? with
          | some y => y.ctxId
          | none => cur
        match runValuesF go name rest cur2 h2 with
        | .error er => .error er
        | .ok (ys3, h3) => .ok (ys2 ++ ys3, h3)
    else
      let c := h.getD cur defaultCtx
      let h1 := h.set cur (c.setList name tv.value_out)
      match go tv.text_in cur h1 with
      | .error er => .error er
      | .ok (ys, h2) =>
        match runValuesF go name rest cur h2 with
        | .error er => .error er
        | .ok (ys3, h3) => .ok (ys ++ ys3, h3)

/-- Embedding of `sample_expression_with_output` (lines 252-370).  `cid` is
the identity of the incoming `used_substitutions` object; every call first
allocates a deep copy of it (line 271).  The result is the finite list of
yielded triples together with the final heap.  Fuel decreases on descent
into sub-expressions; `fuelOut` models the unbounded recursion that the
Python code would perform on a recursive grammar. -/
def sample (fuel : Nat) (e : Expression) (sl : SlotLists) (rl : Rules)
    (cid : Nat) (h : Heap) : Except SErr (List Yield × Heap) :=
  match fuel with
  | 0 => .error .fuelOut
  | n + 1 =>
    let v := h.getD cid defaultCtx
    let myId := h.length
    let h1 := h ++ [v]
    match e with
    | .text t =>
      match v.curr_exp_rule with
      | some r =>
        let v2 := v.setRule r t
        .ok ([⟨t, some t, myId, v2⟩], h1.set myId v2)
      | none => .ok ([⟨t, some t, myId, v⟩], h1)
    | .alt items =>
      sampleSeqF (fun e2 cid2 h2 => sample n e2 sl rl cid2 h2) items myId h1
    | .grp items =>
      if items.isEmpty then .error .emptyGroup
      else
        match samplePoolsF (fun e2 cid2 h2 => sample n e2 sl rl cid2 h2)
            items myId h1 with
        | .error er => .error er
        | .ok (pools, h2) => .ok (runCombos h2 (cartProd pools))
    | .listRef name =>
      match sl.lookup name with
      | none => .error (.missingList name)
      | some vals =>
        runValuesF (fun e2 cid2 h2 => sample n e2 sl rl cid2 h2)
          name vals myId h1
    | .ruleRef name =>
      match rl.lookup name with
      | none => .error (.missingRule name)
      | some body =>
        let v2 := v.setCurr (some name)
        sample n body sl rl myId (h1.set myId v2)

/-- Observable result of one top-level invocation of the sampler on the
module-level default context: the sequence of
`(input_text, output_text, context)` triples as the consumer sees them. -/
def sampleOut (fuel : Nat) (e : Expression) (sl : SlotLists) (rl : Rules) :
    Except SErr (List (String × Option String × Ctx)) :=
  (sample fuel e sl rl 0 [defaultCtx]).map
    (fun p => p.1.map (fun y => (y.inp, y.out, y.snap)))

/-- Python `s.replace(old, new, 1)` on character lists: only the leftmost
occurrence of `old` is replaced; an empty pattern inserts `new` in front. -/
def replFirstL (s pat rep : List Char) : List Char :=
  match pat with
  | [] => rep ++ s
  | _ :: _ =>
    match s with
    | [] => []
    | c :: cs =>
      if pat.isPrefixOf (c :: cs) then rep ++ (c :: cs).drop pat.length
      else c :: replFirstL cs pat rep

/-- Python `s.replace(old, new, 1)` on strings. -/
def pyReplaceFirst (s old new : String) : String :=
  ⟨replFirstL s.data old.data new.data⟩

/-- The loop over `used_substitutions[LISTS_KEY]` of lines 375-376; a `None`
value would make `str.replace` raise a `TypeError`, modeled as `none`. -/
def substLists (s : String) (entries : List (String × Option String)) :
    Option String :=
  entries.foldl
    (fun acc p =>
      match acc, p.2 with
      | some t, some v => some (pyReplaceFirst t ("\x7b" ++ p.1 ++ "\x7d") v)
      | _, _ => none)
    (some s)

/-- Embedding of `__substitute` (lines 373-379): for each list name in the
context replace the first occurrence of `\x7bname\x7d`, then for each rule
name the first occurrence of `<name>`. -/
def substituteText (s : String) (c : Ctx) : Option String :=
  match substLists s c.lists with
  | none => none
  | some t =>
    some (c.exp_rules.foldl
      (fun acc p => pyReplaceFirst acc ("<" ++ p.1 ++ ">") p.2) t)

/-- Python's `a or b or c` over `Optional[str]` operands with a final string
operand, as in line 216: the first truthy operand wins, otherwise the last
operand is returned. -/
def pyOr3 (a b : Option String) (c : String) : String :=
  if pyTruthyOS a then a.getD ""
  else if pyTruthyOS b then b.getD ""
  else c

/-- The corpus-builder loop body for one templated sentence (lines 211-222):
run the sampler from the default context and turn each triple into the
inserted row `(input_text, __substitute(output_text or maybe_output_text or
input_text, used_substitutions))`. -/
def sentenceRowsForTemplate (fuel : Nat) (output_text : Option String)
    (e : Expression) (sl : SlotLists) (rl : Rules) :
    Except SErr (List (String × Option String)) :=
  match sample fuel e sl rl 0 [defaultCtx] with
  | .error er => .error er
  | .ok (ys, _) =>
    .ok (ys.map (fun y => (y.inp, substituteText (pyOr3 output_text y.out y.inp) y.snap)))

/-- Inner loop of the weighted Levenshtein distance: `dxs` is the distance
function of the tail of the first string, `x` its head and `lenxs1` the
distance of the first string to the empty string. -/
def wlevAux (dxs : List Char → Nat) (x : Char) (lenxs1 : Nat) :
    List Char → Nat
  | [] => lenxs1
  | y :: ys =>
    min ((if x = y then 0 else 3) + dxs ys)
        (min (1 + wlevAux dxs x lenxs1 ys) (1 + dxs (y :: ys)))

/-- Weighted Levenshtein distance with insertion cost 1, deletion cost 1 and
substitution cost 3, the scorer configured in lines 402-408
(`Levenshtein.distance` with `weights = (1, 1, 3)`):
the distance of `x :: xs` to `y :: ys` is the minimum of the substitution
(or match), insertion and deletion alternatives. -/
def wlev : List Char → List Char → Nat
  | [], ys => ys.length
  | x :: xs, ys => wlevAux (fun b => wlev xs b) x (xs.length + 1) ys

/-- Model of `rapidfuzz.process.extractOne` over the sentence rows: scan the
rows in order, keep the first row attaining the minimum distance between the
query and the row's `input_text`, and return it with its score; `none` on an
empty row sequence (Python returns `None` there). -/
def extractOneRows (q : String) (rows : List (String × String)) :
    Option ((String × String) × Nat) :=
  rows.foldl
    (fun best row =>
      let sc := wlev q.data row.1.data
      match best with
      | none => some (row, sc)
      | some (r, b) => if sc < b then some (row, sc) else some (r, b))
    none

/-- The persistent store: the `sentences` table rows
`(input_text, output_text)` and the `words` table rows. -/
structure Store where
  sentences : List (String × String)
  words : List String
deriving DecidableEq, Repr

/-- Embedding of `correct_sentence` (lines 381-420) with the database state
threaded explicitly.  `store = none` models an absent database file.  The
`no_correct_patterns` are anchored match predicates.  The returned pair is
(result, database state after the call); the only database operation the
function performs is the `SELECT` over the `sentences` table.  An `.error`
result models a raised exception: with zero rows `extractOne` returns
`None` and `result[0]` raises a `TypeError` (line 409). -/
def correctSentenceState (text : String) (store : Option Store)
    (pats : List (String → Bool)) (score_cutoff : Rat) :
    Except String String × Option Store :=
  match store with
  | none => (.ok text, none)
  | some st =>
    if pats.any (fun p => p text) then (.ok text, some st)
    else
      match extractOneRows text st.sentences with
      | none => (.error "TypeError: NoneType is not subscriptable", some st)
      | some (row, score) =>
        (.ok (if score_cutoff ≤ 0 ∨ (score : Rat) ≤ score_cutoff then row.2
              else text),
         some st)

/-- The value returned (or exception raised) by `correct_sentence`. -/
def correct_sentence (text : String) (store : Option Store)
    (pats : List (String → Bool)) (score_cutoff : Rat) :
    Except String String :=
  (correctSentenceState text store pats score_cutoff).1

mutual

/-- Every list name referenced in the expression is a defined slot list and
every rule name a defined expansion rule. -/
def namesOK (sl : SlotLists) (rl : Rules) : Expression → Bool
  | .text _ => true
  | .alt items => namesOKL sl rl items
  | .grp items => namesOKL sl rl items
  | .listRef n => (sl.lookup n).isSome
  | .ruleRef n => (rl.lookup n).isSome

/-- `namesOK` for every expression of a list. -/
def namesOKL (sl : SlotLists) (rl : Rules) : List Expression → Bool
  | [] => true
  | e :: es => namesOK sl rl e && namesOKL sl rl es

end

/-- Every input sub-expression stored in the slot lists and every rule body
only references defined names. -/
def envOK (sl : SlotLists) (rl : Rules) : Bool :=
  sl.all (fun p => p.2.all (fun tv => namesOK sl rl tv.text_in)) &&
    rl.all (fun p => namesOK sl rl p.2)

/-- The error is not a `MissingListError` / `MissingRuleError`. -/
def errOK (er : SErr) : Prop :=
  match er with
  | .missingList _ => False
  | .missingRule _ => False
  | _ => True

/-- The sampler outcome is not a `MissingListError` / `MissingRuleError`. -/
def noMissing {α : Type} (r : Except SErr α) : Prop :=
  match r with
  | .error er => errOK er
  | .ok _ => True

deriving instance DecidableEq for Except

/-- Heap evolution invariant of the sampler: the heap only grows, every
context object at an index below `N` keeps its value, and every yielded
triple references an object allocated at index `N` or later (a fresh
object, never a pre-existing one). -/
def HeapInvN (N : Nat) (h h2 : Heap) (ys : List Yield) : Prop :=
  h.length ≤ h2.length ∧
  (∀ i, i < N → h2.getD i defaultCtx = h.getD i defaultCtx) ∧
  (∀ y ∈ ys, N ≤ y.ctxId ∧ y.ctxId < h2.length)

/- ======================================================================
   Theorems
   ====================================================================== -/

theorem getD_set_ne {α : Type} (l : List α) (j i : Nat) (a d : α)
    (hij : j ≠ i) : (l.set j a).getD i d = l.getD i d := by
  simp [List.getD_eq_getD_get?, List.get?_eq_getElem?, List.getElem?_set_ne hij]

/-- C1: the substitution context yielded for a Cartesian-product combination
of a concatenation is not limited to that combination's own children's
choices.  On the grammar group `"a " ((\x7bx\x7d) | (\x7by\x7d))` with
one-value lists `x` and `y`, the second enumerated path chooses list `y`
only, yet its yielded context also contains the choice `x → "p"` made by the
first path: `always_merger.merge` mutates the shared first-child context
object in place, and `itertools.product` reuses that object across
combinations. -/
theorem group_context_leak_on_shared_first_child :
    sampleOut 10 (Expression.grp [Expression.text "a ",
        Expression.alt [Expression.listRef "x", Expression.listRef "y"]])
      [("x", [⟨Expression.text "p", some "p"⟩]),
       ("y", [⟨Expression.text "q", some "q"⟩])] [] =
    .ok [("a p", some "a p", ⟨[("x", some "p")], [], none⟩),
         ("a q", some "a q", ⟨[("x", some "p"), ("y", some "q")], [], none⟩)] := by
  decide

/-- C2: on an existing well-formed store whose `sentences` table has zero
rows, `correct_sentence` does not return the input unchanged: `extractOne`
returns `None` over an empty row sequence and `result[0]` (line 409) raises
a `TypeError`, modeled here by the `.error` outcome. -/
theorem correct_sentence_raises_on_empty_sentences_table :
    correct_sentence "hello" (some ⟨[], []⟩) [] 0 =
      .error "TypeError: NoneType is not subscriptable" := by
  rfl

/-- C10: `correct_sentence` never modifies the persistent store: for every
input text, store state, bypass patterns and cutoff, the `sentences` and
`words` tables after the call are identical to those before it (the function
only performs the `SELECT` of line 401). -/
theorem corrector_store_unchanged (text : String) (store : Option Store)
    (pats : List (String → Bool)) (cutoff : Rat) :
    (correctSentenceState text store pats cutoff).2 = store := by
  cases store with
  | none => rfl
  | some st =>
    simp only [correctSentenceState]
    split
    · rfl
    · split <;> rfl

/-- C3 counterexample: a list entry whose declared canonical output is the
empty string is Python-falsy, so lines 324-344 route it through the
no-declared-output branch: the first (and only) variant of the entry
`in: "hello", out: ""` carries the passed-through sampled output
`some "hello"`, not the declared output `""`, contradicting the claim at
this input. -/
theorem empty_declared_output_passthrough :
    sampleOut 4 (Expression.listRef "l")
      [("l", [⟨Expression.text "hello", some ""⟩])] [] =
    .ok [("hello", some "hello", ⟨[("l", some "")], [], none⟩)] := by
  decide

/-- C4 counterexample: on the template expression `((\x7bl\x7d))` with list
entry `in: "(a | b)", out: "x"`, the sampler's second triple carries the
sampled output `some ""` (the group concatenates zero non-absent outputs),
which is Python-falsy; the corpus builder's `output_text or
maybe_output_text or input_text` of line 216 therefore falls through to the
input text and inserts `("b", "b")`, not the empty sampled output the claim
requires. -/
theorem empty_sampled_output_row_uses_input :
    sampleOut 6 (Expression.grp [Expression.listRef "l"])
        [("l", [⟨Expression.alt [Expression.text "a", Expression.text "b"],
                 some "x"⟩])] [] =
      .ok [("a", some "x", ⟨[("l", some "x")], [], none⟩),
           ("b", some "", ⟨[("l", some "x")], [], none⟩)] ∧
    sentenceRowsForTemplate 6 none (Expression.grp [Expression.listRef "l"])
        [("l", [⟨Expression.alt [Expression.text "a", Expression.text "b"],
                 some "x"⟩])] [] =
      .ok [("a", some "x"), ("b", some "b")] := by
  constructor
  · decide
  · decide

theorem string_ext (a b : String) (h : a.data = b.data) : a = b := by
  cases a; cases b; exact congrArg String.mk h

theorem replFirstL_first (pat rep : List Char) (hne : pat ≠ []) (a r : List Char)
    (h : ∀ i, i < a.length → pat.isPrefixOf ((a ++ (pat ++ r)).drop i) = false) :
    replFirstL (a ++ (pat ++ r)) pat rep = a ++ (rep ++ r) := by
  cases pat with
  | nil => exact absurd rfl hne
  | cons p pt =>
    induction a with
    | nil =>
      have hpre : (p :: pt).isPrefixOf (p :: (pt ++ r)) = true := by
        rw [← List.cons_append, List.isPrefixOf_iff_prefix]
        exact List.prefix_append _ _
      simp only [List.nil_append, List.cons_append, replFirstL, List.append_eq,
        hpre, if_true, List.length_cons, List.drop_succ_cons, List.drop_left]
    | cons c a2 ih =>
      have h0 : (p :: pt).isPrefixOf (c :: (a2 ++ p :: (pt ++ r))) = false := by
        have := h 0 (by simp)
        simpa using this
      simp only [List.cons_append, replFirstL, List.append_eq, h0,
        Bool.false_eq_true, if_false]
      have ih2 := ih (fun i hi => by
        have := h (i + 1) (by simp only [List.length_cons]; omega)
        simpa [List.cons_append, List.drop_succ_cons] using this)
      simp only [List.cons_append] at ih2
      rw [ih2]

/-- C6: the Output Text Resolver (`__substitute`) replaces only the first
occurrence of each list placeholder `\x7bname\x7d` and each rule placeholder
`<name>` recorded in the context.  For a template of the form
`A ⬝ ph ⬝ B ⬝ ph ⬝ C` whose first placeholder occurrence starts at position
`|A|` (no occurrence starts inside `A`), only that first occurrence is
substituted and the second occurrence survives verbatim in the result. -/
theorem substitute_first_occurrence_only (name v A B C : String) :
    ((∀ i, i < A.data.length →
        ("\x7b" ++ name ++ "\x7d").data.isPrefixOf
          ((A ++ ("\x7b" ++ name ++ "\x7d") ++ B ++ ("\x7b" ++ name ++ "\x7d") ++ C).data.drop i)
          = false) →
      substituteText
          (A ++ ("\x7b" ++ name ++ "\x7d") ++ B ++ ("\x7b" ++ name ++ "\x7d") ++ C)
          ⟨[(name, some v)], [], none⟩ =
        some (A ++ v ++ B ++ ("\x7b" ++ name ++ "\x7d") ++ C)) ∧
    ((∀ i, i < A.data.length →
        ("<" ++ name ++ ">").data.isPrefixOf
          ((A ++ ("<" ++ name ++ ">") ++ B ++ ("<" ++ name ++ ">") ++ C).data.drop i)
          = false) →
      substituteText
          (A ++ ("<" ++ name ++ ">") ++ B ++ ("<" ++ name ++ ">") ++ C)
          ⟨[], [(name, v)], none⟩ =
        some (A ++ v ++ B ++ ("<" ++ name ++ ">") ++ C)) := by
  constructor
  · intro h
    show some (pyReplaceFirst
        (A ++ ("\x7b" ++ name ++ "\x7d") ++ B ++ ("\x7b" ++ name ++ "\x7d") ++ C)
        ("\x7b" ++ name ++ "\x7d") v) = _
    congr 1
    apply string_ext
    show replFirstL _ _ _ = _
    simp only [String.data_append, List.append_assoc] at h ⊢
    have key := replFirstL_first ("\x7b".data ++ (name.data ++ "\x7d".data)) v.data
      (by simp) A.data
      (B.data ++ ("\x7b".data ++ (name.data ++ ("\x7d".data ++ C.data))))
      (fun i hi => by simpa [List.append_assoc] using h i hi)
    simpa [List.append_assoc] using key
  · intro h
    show some (pyReplaceFirst
        (A ++ ("<" ++ name ++ ">") ++ B ++ ("<" ++ name ++ ">") ++ C)
        ("<" ++ name ++ ">") v) = _
    congr 1
    apply string_ext
    show replFirstL _ _ _ = _
    simp only [String.data_append, List.append_assoc] at h ⊢
    have key := replFirstL_first ("<".data ++ (name.data ++ ">".data)) v.data
      (by simp) A.data
      (B.data ++ ("<".data ++ (name.data ++ (">".data ++ C.data))))
      (fun i hi => by simpa [List.append_assoc] using h i hi)
    simpa [List.append_assoc] using key

/-- C6 witness: concrete two-occurrence templates for a list placeholder and
a rule placeholder; only the first occurrence is substituted. -/
theorem substitute_first_occurrence_only_inst :
    substituteText ("say " ++ "\x7bx\x7d" ++ " and " ++ "\x7bx\x7d" ++ "!")
        ⟨[("x", some "red")], [], none⟩ =
      some ("say " ++ "red" ++ " and " ++ "\x7bx\x7d" ++ "!") ∧
    substituteText ("say " ++ "<x>" ++ " and " ++ "<x>" ++ "!")
        ⟨[], [("x", "red")], none⟩ =
      some ("say " ++ "red" ++ " and " ++ "<x>" ++ "!") :=
  ⟨(substitute_first_occurrence_only "x" "red" "say " " and " "!").1 (by decide),
   (substitute_first_occurrence_only "x" "red" "say " " and " "!").2 (by decide)⟩

theorem extractAux (q : String) (rows : List (String × String)) :
    ∀ (b : Option ((String × String) × Nat)) (row : String × String) (sc : Nat),
      rows.foldl
        (fun best r =>
          let s := wlev q.data r.1.data
          match best with
          | none => some (r, s)
          | some (r0, b0) => if s < b0 then some (r, s) else some (r0, b0)) b
        = some (row, sc) →
      ((b = some (row, sc)) ∨ (row ∈ rows ∧ sc = wlev q.data row.1.data)) ∧
      (∀ r2 ∈ rows, sc ≤ wlev q.data r2.1.data) ∧
      (∀ r0 s0, b = some (r0, s0) → sc ≤ s0) := by
  induction rows with
  | nil =>
    intro b row sc hfold
    simp only [List.foldl_nil] at hfold
    refine ⟨Or.inl hfold, by simp, ?_⟩
    intro r0 s0 hb
    rw [hfold] at hb
    injection hb with hb1
    injection hb1 with hb2 hb3
    omega
  | cons r rows ih =>
    intro b row sc hfold
    rw [List.foldl_cons] at hfold
    obtain ⟨hA, hB, hC⟩ := ih _ row sc hfold
    cases b with
    | none =>
      have hstep : (some (r, wlev q.data r.1.data) :
          Option ((String × String) × Nat)) = some (r, wlev q.data r.1.data) := rfl
      refine ⟨?_, ?_, ?_⟩
      · rcases hA with hA | hA
        · simp only at hA
          cases hA
          exact Or.inr ⟨List.mem_cons_self _ _, rfl⟩
        · exact Or.inr ⟨List.mem_cons_of_mem _ hA.1, hA.2⟩
      · intro r2 hr2
        rcases List.mem_cons.1 hr2 with h2 | h2
        · subst h2
          exact hC _ _ rfl
        · exact hB _ h2
      · intro r0 s0 hb
        cases hb
    | some p =>
      obtain ⟨r0, s0⟩ := p
      simp only at hfold hA hC
      by_cases hlt : wlev q.data r.1.data < s0
      · rw [if_pos hlt] at hA hC
        refine ⟨?_, ?_, ?_⟩
        · rcases hA with hA | hA
          · cases hA
            exact Or.inr ⟨List.mem_cons_self _ _, rfl⟩
          · exact Or.inr ⟨List.mem_cons_of_mem _ hA.1, hA.2⟩
        · intro r2 hr2
          rcases List.mem_cons.1 hr2 with h2 | h2
          · subst h2
            exact hC _ _ rfl
          · exact hB _ h2
        · intro r1 s1 hb
          cases hb
          have := hC _ _ rfl
          omega
      · rw [if_neg hlt] at hA hC
        refine ⟨?_, ?_, ?_⟩
        · rcases hA with hA | hA
          · exact Or.inl hA
          · exact Or.inr ⟨List.mem_cons_of_mem _ hA.1, hA.2⟩
        · intro r2 hr2
          rcases List.mem_cons.1 hr2 with h2 | h2
          · subst h2
            have := hC _ _ rfl
            omega
          · exact hB _ h2
        · intro r1 s1 hb
          cases hb
          exact hC _ _ rfl

/-- C8: given an existing non-empty store (witnessed by `extractOne`
returning a best row), and no bypass pattern matching, `correct_sentence`
returns the best-matching row's `output_text` exactly when
`score_cutoff <= 0` or the winning weighted edit distance (insertion 1,
deletion 1, substitution 3) is at most `score_cutoff`, and otherwise returns
the input unchanged; moreover the returned row is a row of the store whose
distance to the input is minimal (first minimum in scan order). -/
theorem corrector_cutoff_acceptance (text : String) (st : Store)
    (pats : List (String → Bool)) (cutoff : Rat)
    (row : String × String) (sc : Nat)
    (hp : pats.any (fun p => p text) = false)
    (he : extractOneRows text st.sentences = some (row, sc)) :
    correct_sentence text (some st) pats cutoff =
      .ok (if cutoff ≤ 0 ∨ (sc : Rat) ≤ cutoff then row.2 else text) ∧
    row ∈ st.sentences ∧ sc = wlev text.data row.1.data ∧
    ∀ r2 ∈ st.sentences, sc ≤ wlev text.data r2.1.data := by
  have he2 := he
  rw [extractOneRows] at he2
  obtain ⟨hA, hB, _⟩ := extractAux text st.sentences none row sc he2
  rcases hA with hA | hA
  · cases hA
  · refine ⟨?_, hA.1, hA.2, hB⟩
    simp only [correct_sentence, correctSentenceState, hp, Bool.false_eq_true,
      if_false, he]

/-- C8 witness: a two-row store with cutoff 0; the best row's output is
accepted. -/
theorem corrector_cutoff_acceptance_inst :
    correct_sentence "ab" (some ⟨[("abc", "X"), ("zz", "Y")], []⟩) [] 0 =
      .ok (if (0 : Rat) ≤ 0 ∨ ((1 : Nat) : Rat) ≤ 0 then "X" else "ab") ∧
    ("abc", "X") ∈ [("abc", "X"), ("zz", "Y")] ∧
    1 = wlev "ab".data "abc".data ∧
    ∀ r2 ∈ [("abc", "X"), ("zz", "Y")], 1 ≤ wlev "ab".data r2.1.data :=
  corrector_cutoff_acceptance "ab" ⟨[("abc", "X"), ("zz", "Y")], []⟩ [] 0
    ("abc", "X") 1 (by decide) (by decide)

theorem sample_eq_zero (e : Expression) (sl : SlotLists) (rl : Rules)
    (cid : Nat) (h : Heap) : sample 0 e sl rl cid h = .error .fuelOut := rfl

theorem sample_eq_text (n : Nat) (t : String) (sl : SlotLists) (rl : Rules)
    (cid : Nat) (h : Heap) :
    sample (n + 1) (Expression.text t) sl rl cid h =
      (match (h.getD cid defaultCtx).curr_exp_rule with
       | some r =>
         .ok ([⟨t, some t, h.length, (h.getD cid defaultCtx).setRule r t⟩],
           (h ++ [h.getD cid defaultCtx]).set h.length
             ((h.getD cid defaultCtx).setRule r t))
       | none =>
         .ok ([⟨t, some t, h.length, h.getD cid defaultCtx⟩],
           h ++ [h.getD cid defaultCtx])) := rfl

theorem sample_eq_alt (n : Nat) (items : List Expression) (sl : SlotLists)
    (rl : Rules) (cid : Nat) (h : Heap) :
    sample (n + 1) (Expression.alt items) sl rl cid h =
      sampleSeqF (fun e2 cid2 h2 => sample n e2 sl rl cid2 h2) items h.length
        (h ++ [h.getD cid defaultCtx]) := rfl

theorem sample_eq_grp (n : Nat) (items : List Expression) (sl : SlotLists)
    (rl : Rules) (cid : Nat) (h : Heap) :
    sample (n + 1) (Expression.grp items) sl rl cid h =
      (if items.isEmpty then .error .emptyGroup
       else
         match samplePoolsF (fun e2 cid2 h2 => sample n e2 sl rl cid2 h2)
             items h.length (h ++ [h.getD cid defaultCtx]) with
         | .error er => .error er
         | .ok (pools, h2) => .ok (runCombos h2 (cartProd pools))) := rfl

theorem sample_eq_list (n : Nat) (name : String) (sl : SlotLists) (rl : Rules)
    (cid : Nat) (h : Heap) :
    sample (n + 1) (Expression.listRef name) sl rl cid h =
      (match sl.lookup name with
       | none => .error (.missingList name)
       | some vals =>
         runValuesF (fun e2 cid2 h2 => sample n e2 sl rl cid2 h2) name vals
           h.length (h ++ [h.getD cid defaultCtx])) := rfl

theorem sample_eq_rule (n : Nat) (name : String) (sl : SlotLists) (rl : Rules)
    (cid : Nat) (h : Heap) :
    sample (n + 1) (Expression.ruleRef name) sl rl cid h =
      (match rl.lookup name with
       | none => .error (.missingRule name)
       | some body =>
         sample n body sl rl h.length
           ((h ++ [h.getD cid defaultCtx]).set h.length
             ((h.getD cid defaultCtx).setCurr (some name)))) := rfl

theorem cartProd_length (ps : List (List α)) :
    (cartProd ps).length = (ps.map List.length).prod := by
  induction ps with
  | nil => simp [cartProd]
  | cons p ps ih =>
    simp only [cartProd, List.length_flatMap, List.map_map, List.map_cons,
      List.prod_cons, Function.comp_def, List.length_map, ih]
    rw [List.map_const', List.sum_replicate, smul_eq_mul]

theorem cartProd_mem_length (ps : List (List α)) :
    ∀ c ∈ cartProd ps, c.length = ps.length := by
  induction ps with
  | nil =>
    intro c hc
    simp [cartProd] at hc
    simp [hc]
  | cons p ps ih =>
    intro c hc
    simp only [cartProd, List.mem_flatMap, List.mem_map] at hc
    obtain ⟨x, _, c2, hc2, rfl⟩ := hc
    simp [ih c2 hc2]

theorem runCombos_length (cs : List (List Yield)) :
    ∀ h : Heap, (∀ c ∈ cs, c ≠ []) → (runCombos h cs).1.length = cs.length := by
  induction cs with
  | nil => intro h _; rfl
  | cons c cs ih =>
    intro h hne
    cases c with
    | nil => exact absurd rfl (hne [] (List.mem_cons_self _ _))
    | cons y0 ytl =>
      simp only [runCombos, List.length_cons]
      rw [ih _ (fun c2 hc2 => hne c2 (List.mem_cons_of_mem _ hc2))]

theorem samplePoolsF_length
    (go : Expression → Nat → Heap → Except SErr (List Yield × Heap)) :
    ∀ (items : List Expression) (cid : Nat) (h : Heap) (ps : List (List Yield))
      (h2 : Heap),
      samplePoolsF go items cid h = .ok (ps, h2) → ps.length = items.length := by
  intro items
  induction items with
  | nil =>
    intro cid h ps h2 hps
    simp only [samplePoolsF] at hps
    cases hps
    rfl
  | cons e rest ih =>
    intro cid h ps h2 hps
    simp only [samplePoolsF] at hps
    cases hgo : go e cid h with
    | error er =>
      simp only [hgo] at hps
      exact Except.noConfusion hps
    | ok p =>
      obtain ⟨ys, h1⟩ := p
      simp only [hgo] at hps
      cases hrest : samplePoolsF go rest cid h1 with
      | error er =>
        simp only [hrest] at hps
        exact Except.noConfusion hps
      | ok p2 =>
        obtain ⟨ps2, h3⟩ := p2
        simp only [hrest] at hps
        cases hps
        simp [ih _ _ _ _ hrest]

theorem sample_succ_text (sl : SlotLists) (rl : Rules) (n : Nat) (t : String)
    (cid : Nat) (h : Heap) :
    ∃ y h1, sample (n + 1) (Expression.text t) sl rl cid h = .ok ([y], h1) ∧
      y.inp = t ∧ y.out = some t := by
  cases hc : (h.getD cid defaultCtx).curr_exp_rule with
  | some r =>
    refine ⟨⟨t, some t, h.length, (h.getD cid defaultCtx).setRule r t⟩,
      (h ++ [h.getD cid defaultCtx]).set h.length
        ((h.getD cid defaultCtx).setRule r t), ?_, rfl, rfl⟩
    rw [sample_eq_text, hc]
  | none =>
    refine ⟨⟨t, some t, h.length, h.getD cid defaultCtx⟩,
      h ++ [h.getD cid defaultCtx], ?_, rfl, rfl⟩
    rw [sample_eq_text, hc]

theorem seq_chunks (sl : SlotLists) (rl : Rules) (n : Nat) :
    ∀ (ts : List String) (cid : Nat) (h : Heap),
      ∃ ys h2,
        sampleSeqF (fun e2 cid2 h3 => sample (n + 1) e2 sl rl cid2 h3)
            (ts.map Expression.text) cid h = .ok (ys, h2) ∧
        ys.map (fun y => (y.inp, y.out)) = ts.map (fun t => (t, some t)) := by
  intro ts
  induction ts with
  | nil => intro cid h; exact ⟨[], h, rfl, rfl⟩
  | cons t ts ih =>
    intro cid h
    obtain ⟨y, h1, hs, hyi, hyo⟩ := sample_succ_text sl rl n t cid h
    obtain ⟨ys2, h2, hs2, hm⟩ := ih cid h1
    refine ⟨y :: ys2, h2, ?_, ?_⟩
    · simp only [List.map_cons, sampleSeqF, hs, hs2]
      rfl
    · simp [hyi, hyo, hm]

/-- C5: an alternation of N literal children yields exactly N triples, one
per child in declaration order (each literal yielding itself as input and
output); a concatenation of a non-empty list of children whose materialized
pools have sizes c1, ..., ck yields exactly c1 * ... * ck triples, the
length of the Cartesian product of the pools. -/
theorem alternation_and_group_counts :
    (∀ (n : Nat) (ts : List String) (sl : SlotLists) (rl : Rules) (cid : Nat)
        (h : Heap),
      ∃ ys h2,
        sample (n + 2) (Expression.alt (ts.map Expression.text)) sl rl cid h =
          .ok (ys, h2) ∧
        ys.map (fun y => (y.inp, y.out)) = ts.map (fun t => (t, some t))) ∧
    (∀ (n : Nat) (items : List Expression) (sl : SlotLists) (rl : Rules)
        (cid : Nat) (h : Heap) (ps : List (List Yield)) (h2 : Heap),
      items ≠ [] →
      samplePoolsF (fun e2 cid2 h3 => sample (n + 1) e2 sl rl cid2 h3) items
          h.length (h ++ [h.getD cid defaultCtx]) = .ok (ps, h2) →
      ∃ ys h3,
        sample (n + 2) (Expression.grp items) sl rl cid h = .ok (ys, h3) ∧
        ys.length = (ps.map List.length).prod) := by
  constructor
  · intro n ts sl rl cid h
    obtain ⟨ys, h2, hs, hm⟩ :=
      seq_chunks sl rl n ts h.length (h ++ [h.getD cid defaultCtx])
    refine ⟨ys, h2, ?_, hm⟩
    rw [sample_eq_alt]
    exact hs
  · intro n items sl rl cid h ps h2 hne hps
    have hplen := samplePoolsF_length _ items _ _ _ _ hps
    have hclen : ∀ c ∈ cartProd ps, c ≠ [] := by
      intro c hc
      have hlen := cartProd_mem_length ps c hc
      intro hnil
      rw [hnil] at hlen
      simp only [List.length_nil] at hlen
      have hne2 : ps.length ≠ 0 := by
        rw [hplen]
        simpa using hne
      omega
    refine ⟨(runCombos h2 (cartProd ps)).1, (runCombos h2 (cartProd ps)).2, ?_, ?_⟩
    · rw [sample_eq_grp, if_neg (by simpa using hne), hps]
    · rw [runCombos_length _ _ hclen, cartProd_length]

/-- C5 witness: a two-literal alternation yields its two children in order;
a group of a literal and a two-literal alternation yields 1 * 2 = 2
triples. -/
theorem alternation_and_group_counts_inst :
    (∃ ys h2,
      sample 2 (Expression.alt [Expression.text "on", Expression.text "off"])
          [] [] 0 [defaultCtx] = .ok (ys, h2) ∧
      ys.map (fun y => (y.inp, y.out)) =
        [("on", some "on"), ("off", some "off")]) ∧
    (∃ ys h3,
      sample 3 (Expression.grp [Expression.text "a",
          Expression.alt [Expression.text "b", Expression.text "c"]])
          [] [] 0 [defaultCtx] = .ok (ys, h3) ∧
      ys.length = 2) :=
  ⟨alternation_and_group_counts.1 0 ["on", "off"] [] [] 0 [defaultCtx],
   alternation_and_group_counts.2 1
     [Expression.text "a",
      Expression.alt [Expression.text "b", Expression.text "c"]]
     [] [] 0 [defaultCtx]
     [[⟨"a", some "a", 2, defaultCtx⟩],
      [⟨"b", some "b", 4, defaultCtx⟩, ⟨"c", some "c", 5, defaultCtx⟩]]
     [defaultCtx, defaultCtx, defaultCtx, defaultCtx, defaultCtx, defaultCtx]
     (by simp) (by decide)⟩

theorem tagFirst_length (s nm : String) (v : Option String) (l : List Yield) :
    (tagFirst s nm v l).length = l.length := by
  cases l <;> simp [tagFirst]

theorem tagFirst_outs (s nm : String) (v : Option String) (l : List Yield) :
    (tagFirst s nm v l).map Yield.out =
      (List.range l.length).map (fun i => if i = 0 then some s else none) := by
  cases l with
  | nil => rfl
  | cons y t =>
    simp [tagFirst, List.range_succ_eq_map, List.map_map, Function.comp_def]

/-- The per-entry decomposition of the `for text_value in text_list.values`
loop (lines 324-352): the enumeration is the concatenation of one segment
per value entry; a truthy entry's segment carries the declared output on its
first variant and an absent output on every later one, while a falsy entry's
segment is verbatim one enumeration of that entry's input sub-expression
(its sampled outputs pass through unchanged). -/
theorem runValuesF_segments
    (go : Expression → Nat → Heap → Except SErr (List Yield × Heap))
    (name : String) :
    ∀ (vals : List TextSlotValue) (cur : Nat) (h : Heap) (ys : List Yield)
      (h2 : Heap),
      runValuesF go name vals cur h = .ok (ys, h2) →
      ∃ segs : List (List Yield),
        ys = segs.flatten ∧ segs.length = vals.length ∧
        ∀ i (hi : i < vals.length) (hj : i < segs.length),
          (pyTruthyOS (vals.get ⟨i, hi⟩).value_out = true →
            (segs.get ⟨i, hj⟩).map Yield.out =
              (List.range (segs.get ⟨i, hj⟩).length).map
                (fun j => if j = 0 then
                  some ((vals.get ⟨i, hi⟩).value_out.getD "") else none)) ∧
          (pyTruthyOS (vals.get ⟨i, hi⟩).value_out = false →
            ∃ cur2 h3 h4, go (vals.get ⟨i, hi⟩).text_in cur2 h3 =
              .ok (segs.get ⟨i, hj⟩, h4)) := by
  intro vals
  induction vals with
  | nil =>
    intro cur h ys h2 hk
    simp only [runValuesF] at hk
    injection hk with hk2
    injection hk2 with hk3 hk4
    subst hk3
    refine ⟨[], by simp, rfl, ?_⟩
    intro i hi hj
    cases hi
  | cons tv rest ih =>
    intro cur h ys h2 hk
    by_cases htr : pyTruthyOS tv.value_out
    · simp only [runValuesF, htr, if_true] at hk
      cases hg : go tv.text_in cur h with
      | error er => rw [hg] at hk; exact Except.noConfusion hk
      | ok p =>
        obtain ⟨ysv, h1⟩ := p
        rw [hg] at hk
        cases hrest : runValuesF go name rest
            (match ysv.getLast? with
             | some y => y.ctxId
             | none => cur)
            (applyListWrites name tv.value_out ysv h1) with
        | error er => simp only [hrest] at hk; exact Except.noConfusion hk
        | ok p2 =>
          obtain ⟨ys3, h3⟩ := p2
          simp only [hrest] at hk
          injection hk with hk2
          injection hk2 with hk3 hk4
          subst hk3
          obtain ⟨segs, hflat, hlen, hprop⟩ := ih _ _ _ _ hrest
          refine ⟨tagFirst (tv.value_out.getD "") name tv.value_out ysv :: segs,
            by simp [List.flatten_cons, hflat], by simp [hlen], ?_⟩
          intro i hi hj
          cases i with
          | zero =>
            have hv0 : ((tv :: rest).get ⟨0, hi⟩) = tv := rfl
            have hs0 : ((tagFirst (tv.value_out.getD "") name tv.value_out ysv
                :: segs).get ⟨0, hj⟩) =
                tagFirst (tv.value_out.getD "") name tv.value_out ysv := rfl
            refine ⟨fun _ => ?_, fun hf => ?_⟩
            · rw [hv0, hs0, tagFirst_outs, tagFirst_length]
            · rw [hv0] at hf
              rw [hf] at htr
              exact Bool.noConfusion htr
          | succ i =>
            exact hprop i (by simpa using Nat.lt_of_succ_lt_succ hi)
              (by simpa using Nat.lt_of_succ_lt_succ hj)
    · have htr2 : pyTruthyOS tv.value_out = false := by simpa using htr
      simp only [runValuesF, htr2, Bool.false_eq_true, if_false] at hk
      cases hg : go tv.text_in cur
          (h.set cur ((h.getD cur defaultCtx).setList name tv.value_out)) with
      | error er => rw [hg] at hk; exact Except.noConfusion hk
      | ok p =>
        obtain ⟨ysv, h1⟩ := p
        rw [hg] at hk
        cases hrest : runValuesF go name rest cur h1 with
        | error er => simp only [hrest] at hk; exact Except.noConfusion hk
        | ok p2 =>
          obtain ⟨ys3, h3⟩ := p2
          simp only [hrest] at hk
          injection hk with hk2
          injection hk2 with hk3 hk4
          subst hk3
          obtain ⟨segs, hflat, hlen, hprop⟩ := ih _ _ _ _ hrest
          refine ⟨ysv :: segs, by simp [List.flatten_cons, hflat],
            by simp [hlen], ?_⟩
          intro i hi hj
          cases i with
          | zero =>
            have hv0 : ((tv :: rest).get ⟨0, hi⟩) = tv := rfl
            have hs0 : ((ysv :: segs).get ⟨0, hj⟩) = ysv := rfl
            refine ⟨fun ht => ?_, fun _ => ?_⟩
            · rw [hv0] at ht
              rw [ht] at htr2
              exact Bool.noConfusion htr2
            · rw [hv0, hs0]
              exact ⟨cur,
                h.set cur ((h.getD cur defaultCtx).setList name tv.value_out),
                h1, hg⟩
          | succ i =>
            exact hprop i (by simpa using Nat.lt_of_succ_lt_succ hi)
              (by simpa using Nat.lt_of_succ_lt_succ hj)

/-- C3 (amended): for a list reference over a defined slot list, the
yielded sequence decomposes into one segment per value entry, in order; for
every entry with a truthy (non-empty) declared canonical output, the
segment's first variant carries the declared output text and every
subsequent variant of the same entry an absent output; for every entry
whose declared output is falsy (absent or the empty string), the segment is
verbatim an enumeration of that entry's input sub-expression, so its
sampled outputs are passed through unchanged. -/
theorem list_entry_output_discipline
    (n : Nat) (name : String) (sl : SlotLists) (rl : Rules)
    (vals : List TextSlotValue) (cid : Nat) (h : Heap) (ys : List Yield)
    (h2 : Heap)
    (hlook : sl.lookup name = some vals)
    (hall : sample (n + 1) (Expression.listRef name) sl rl cid h = .ok (ys, h2)) :
    ∃ segs : List (List Yield),
      ys = segs.flatten ∧ segs.length = vals.length ∧
      ∀ i (hi : i < vals.length) (hj : i < segs.length),
        (pyTruthyOS (vals.get ⟨i, hi⟩).value_out = true →
          (segs.get ⟨i, hj⟩).map Yield.out =
            (List.range (segs.get ⟨i, hj⟩).length).map
              (fun j => if j = 0 then
                some ((vals.get ⟨i, hi⟩).value_out.getD "") else none)) ∧
        (pyTruthyOS (vals.get ⟨i, hi⟩).value_out = false →
          ∃ cur2 h3 h4,
            sample n (vals.get ⟨i, hi⟩).text_in sl rl cur2 h3 =
              .ok (segs.get ⟨i, hj⟩, h4)) := by
  rw [sample_eq_list, hlook] at hall
  exact runValuesF_segments _ name vals _ _ ys h2 hall

/-- C3 witness: slot list with entries `in: (a | b), out: "x"` (truthy,
two variants) and `in: "c", out: ""` (falsy): the first segment's outputs
are `some "x"` then absent, and the second segment passes `some "c"`
through. -/
theorem list_entry_output_discipline_inst :
    ∃ segs : List (List Yield),
      ([⟨"a", some "x", 3, ⟨[("l", some "x")], [], none⟩⟩,
        ⟨"b", none, 4, ⟨[("l", some "x")], [], none⟩⟩,
        ⟨"c", some "c", 5, ⟨[("l", some "")], [], none⟩⟩] : List Yield) =
        segs.flatten ∧
      segs.length = ([⟨Expression.alt [Expression.text "a",
          Expression.text "b"], some "x"⟩,
        ⟨Expression.text "c", some ""⟩] : List TextSlotValue).length ∧
      ∀ i (hi : i < ([⟨Expression.alt [Expression.text "a",
            Expression.text "b"], some "x"⟩,
          ⟨Expression.text "c", some ""⟩] : List TextSlotValue).length)
          (hj : i < segs.length),
        (pyTruthyOS (([⟨Expression.alt [Expression.text "a",
              Expression.text "b"], some "x"⟩,
            ⟨Expression.text "c", some ""⟩] : List TextSlotValue).get
            ⟨i, hi⟩).value_out = true →
          (segs.get ⟨i, hj⟩).map Yield.out =
            (List.range (segs.get ⟨i, hj⟩).length).map
              (fun j => if j = 0 then
                some ((([⟨Expression.alt [Expression.text "a",
                    Expression.text "b"], some "x"⟩,
                  ⟨Expression.text "c", some ""⟩] : List TextSlotValue).get
                  ⟨i, hi⟩).value_out.getD "") else none)) ∧
        (pyTruthyOS (([⟨Expression.alt [Expression.text "a",
              Expression.text "b"], some "x"⟩,
            ⟨Expression.text "c", some ""⟩] : List TextSlotValue).get
            ⟨i, hi⟩).value_out = false →
          ∃ cur2 h3 h4,
            sample 3 (([⟨Expression.alt [Expression.text "a",
                Expression.text "b"], some "x"⟩,
              ⟨Expression.text "c", some ""⟩] : List TextSlotValue).get
              ⟨i, hi⟩).text_in
              [("l", [⟨Expression.alt [Expression.text "a",
                  Expression.text "b"], some "x"⟩,
                ⟨Expression.text "c", some ""⟩])] [] cur2 h3 =
              .ok (segs.get ⟨i, hj⟩, h4)) :=
  list_entry_output_discipline 3 "l"
    [("l", [⟨Expression.alt [Expression.text "a", Expression.text "b"],
             some "x"⟩,
      ⟨Expression.text "c", some ""⟩])] []
    [⟨Expression.alt [Expression.text "a", Expression.text "b"], some "x"⟩,
     ⟨Expression.text "c", some ""⟩]
    0 [defaultCtx]
    [⟨"a", some "x", 3, ⟨[("l", some "x")], [], none⟩⟩,
     ⟨"b", none, 4, ⟨[("l", some "x")], [], none⟩⟩,
     ⟨"c", some "c", 5, ⟨[("l", some "")], [], none⟩⟩]
    [defaultCtx, defaultCtx, defaultCtx, ⟨[("l", some "x")], [], none⟩,
     ⟨[("l", some "")], [], none⟩, ⟨[("l", some "")], [], none⟩]
    rfl (by decide)

/-- C4 (amended): for every templated sentence the Corpus Builder inserts,
for each sampler triple, the row `(input_text, resolve(selected))` where
`selected` follows the Python `or` chain of line 216: the explicit
template-level output when truthy (non-empty), else the sampled output when
present and truthy, else the input text; empty-string outputs are falsy and
are skipped. -/
theorem corpus_row_output_selection (fuel : Nat) (ot : Option String)
    (e : Expression) (sl : SlotLists) (rl : Rules) (ys : List Yield)
    (h2 : Heap)
    (hs : sample fuel e sl rl 0 [defaultCtx] = .ok (ys, h2)) :
    sentenceRowsForTemplate fuel ot e sl rl =
      .ok (ys.map (fun y => (y.inp, substituteText (pyOr3 ot y.out y.inp) y.snap))) ∧
    ∀ y ∈ ys,
      (∀ s, ot = some s → s ≠ "" →
        substituteText (pyOr3 ot y.out y.inp) y.snap = substituteText s y.snap) ∧
      ((ot = none ∨ ot = some "") → ∀ t, y.out = some t → t ≠ "" →
        substituteText (pyOr3 ot y.out y.inp) y.snap = substituteText t y.snap) ∧
      ((ot = none ∨ ot = some "") → (y.out = none ∨ y.out = some "") →
        substituteText (pyOr3 ot y.out y.inp) y.snap =
          substituteText y.inp y.snap) := by
  constructor
  · simp only [sentenceRowsForTemplate, hs]
  · intro y _
    refine ⟨?_, ?_, ?_⟩
    · intro s hot hs0
      subst hot
      simp [pyOr3, pyTruthyOS, hs0]
    · intro hot t hyt ht0
      rcases hot with rfl | rfl <;> simp [pyOr3, pyTruthyOS, hyt, ht0]
    · intro hot hyo
      rcases hot with rfl | rfl <;> rcases hyo with hyo | hyo <;>
        simp [pyOr3, pyTruthyOS, hyo]

/-- C4 witness: a single-literal template with a non-empty explicit
template-level output. -/
theorem corpus_row_output_selection_inst :
    sentenceRowsForTemplate 1 (some "OUT") (Expression.text "hi") [] [] =
      .ok (([⟨"hi", some "hi", 1, defaultCtx⟩] : List Yield).map
        (fun y => (y.inp, substituteText (pyOr3 (some "OUT") y.out y.inp) y.snap))) ∧
    ∀ y ∈ ([⟨"hi", some "hi", 1, defaultCtx⟩] : List Yield),
      (∀ s, (some "OUT" : Option String) = some s → s ≠ "" →
        substituteText (pyOr3 (some "OUT") y.out y.inp) y.snap =
          substituteText s y.snap) ∧
      (((some "OUT" : Option String) = none ∨ (some "OUT" : Option String) = some "") →
        ∀ t, y.out = some t → t ≠ "" →
        substituteText (pyOr3 (some "OUT") y.out y.inp) y.snap =
          substituteText t y.snap) ∧
      (((some "OUT" : Option String) = none ∨ (some "OUT" : Option String) = some "") →
        (y.out = none ∨ y.out = some "") →
        substituteText (pyOr3 (some "OUT") y.out y.inp) y.snap =
          substituteText y.inp y.snap) :=
  corpus_row_output_selection 1 (some "OUT") (Expression.text "hi") [] []
    [⟨"hi", some "hi", 1, defaultCtx⟩] [defaultCtx, defaultCtx] (by decide)

theorem noMissing_ok {α : Type} (x : α) : noMissing (Except.ok x) := trivial

theorem noMissing_error {α β : Type} (er : SErr)
    (h : noMissing (Except.error er : Except SErr α)) :
    noMissing (Except.error er : Except SErr β) := h

theorem lookup_mem {β : Type} (k : String) (l : List (String × β)) (v : β)
    (h : l.lookup k = some v) : (k, v) ∈ l := by
  induction l with
  | nil => cases h
  | cons p t ih =>
    obtain ⟨a, b⟩ := p
    simp only [List.lookup] at h
    cases hk : (k == a) with
    | true =>
      simp only [hk] at h
      injection h with h2
      subst h2
      have hka : k = a := by simpa using hk
      subst hka
      exact List.mem_cons_self _ _
    | false =>
      simp only [hk] at h
      exact List.mem_cons_of_mem _ (ih h)

theorem namesOKL_mem (sl : SlotLists) (rl : Rules) (items : List Expression)
    (h : namesOKL sl rl items = true) :
    ∀ e ∈ items, namesOK sl rl e = true := by
  induction items with
  | nil => intro e he; cases he
  | cons e2 rest ih =>
    simp only [namesOKL, Bool.and_eq_true] at h
    intro e he
    rcases List.mem_cons.1 he with rfl | he2
    · exact h.1
    · exact ih h.2 e he2

theorem seqF_noMissing
    (go : Expression → Nat → Heap → Except SErr (List Yield × Heap))
    (items : List Expression)
    (hgo : ∀ e ∈ items, ∀ cid h, noMissing (go e cid h)) :
    ∀ (cid : Nat) (h : Heap), noMissing (sampleSeqF go items cid h) := by
  induction items with
  | nil => intro cid h; exact noMissing_ok _
  | cons e rest ih =>
    intro cid h
    cases hg : go e cid h with
    | error er =>
      have hn := hgo e (List.mem_cons_self _ _) cid h
      rw [hg] at hn
      simp only [sampleSeqF, hg]
      exact hn
    | ok p =>
      obtain ⟨ys, h1⟩ := p
      cases hrest : sampleSeqF go rest cid h1 with
      | error er =>
        have hn := ih (fun e2 he2 => hgo e2 (List.mem_cons_of_mem _ he2)) cid h1
        rw [hrest] at hn
        simp only [sampleSeqF, hg, hrest]
        exact hn
      | ok p2 =>
        obtain ⟨ys2, h2⟩ := p2
        simp only [sampleSeqF, hg, hrest]
        exact noMissing_ok _

theorem poolsF_noMissing
    (go : Expression → Nat → Heap → Except SErr (List Yield × Heap))
    (items : List Expression)
    (hgo : ∀ e ∈ items, ∀ cid h, noMissing (go e cid h)) :
    ∀ (cid : Nat) (h : Heap), noMissing (samplePoolsF go items cid h) := by
  induction items with
  | nil => intro cid h; exact noMissing_ok _
  | cons e rest ih =>
    intro cid h
    cases hg : go e cid h with
    | error er =>
      have hn := hgo e (List.mem_cons_self _ _) cid h
      rw [hg] at hn
      simp only [samplePoolsF, hg]
      exact noMissing_error er hn
    | ok p =>
      obtain ⟨ys, h1⟩ := p
      cases hrest : samplePoolsF go rest cid h1 with
      | error er =>
        have hn := ih (fun e2 he2 => hgo e2 (List.mem_cons_of_mem _ he2)) cid h1
        rw [hrest] at hn
        simp only [samplePoolsF, hg, hrest]
        exact hn
      | ok p2 =>
        obtain ⟨ps2, h2⟩ := p2
        simp only [samplePoolsF, hg, hrest]
        exact noMissing_ok _

theorem valuesF_noMissing
    (go : Expression → Nat → Heap → Except SErr (List Yield × Heap))
    (name : String) (vals : List TextSlotValue)
    (hgo : ∀ tv ∈ vals, ∀ cid h, noMissing (go tv.text_in cid h)) :
    ∀ (cur : Nat) (h : Heap), noMissing (runValuesF go name vals cur h) := by
  induction vals with
  | nil => intro cur h; exact noMissing_ok _
  | cons tv rest ih =>
    intro cur h
    by_cases htr : pyTruthyOS tv.value_out
    · cases hg : go tv.text_in cur h with
      | error er =>
        have hn := hgo tv (List.mem_cons_self _ _) cur h
        rw [hg] at hn
        simp only [runValuesF, htr, if_true, hg]
        exact hn
      | ok p =>
        obtain ⟨ys, h1⟩ := p
        cases hrest : runValuesF go name rest
            (match ys.getLast? with
             | some y => y.ctxId
             | none => cur)
            (applyListWrites name tv.value_out ys h1) with
        | error er =>
          have hn := ih (fun tv2 h2 => hgo tv2 (List.mem_cons_of_mem _ h2))
            (match ys.getLast? with
             | some y => y.ctxId
             | none => cur)
            (applyListWrites name tv.value_out ys h1)
          rw [hrest] at hn
          simp only [runValuesF, htr, if_true, hg, hrest]
          exact hn
        | ok p2 =>
          obtain ⟨ys3, h3⟩ := p2
          simp only [runValuesF, htr, if_true, hg, hrest]
          exact noMissing_ok _
    · have htr2 : pyTruthyOS tv.value_out = false := by simpa using htr
      cases hg : go tv.text_in cur
          (h.set cur ((h.getD cur defaultCtx).setList name tv.value_out)) with
      | error er =>
        have hn := hgo tv (List.mem_cons_self _ _) cur
          (h.set cur ((h.getD cur defaultCtx).setList name tv.value_out))
        rw [hg] at hn
        simp only [runValuesF, htr2, Bool.false_eq_true, if_false, hg]
        exact hn
      | ok p =>
        obtain ⟨ys, h2⟩ := p
        cases hrest : runValuesF go name rest cur h2 with
        | error er =>
          have hn := ih (fun tv2 h3 => hgo tv2 (List.mem_cons_of_mem _ h3)) cur h2
          rw [hrest] at hn
          simp only [runValuesF, htr2, Bool.false_eq_true, if_false, hg, hrest]
          exact hn
        | ok p2 =>
          obtain ⟨ys3, h3⟩ := p2
          simp only [runValuesF, htr2, Bool.false_eq_true, if_false, hg, hrest]
          exact noMissing_ok _

theorem sample_noMissing :
    ∀ (n : Nat) (e : Expression) (sl : SlotLists) (rl : Rules) (cid : Nat)
      (h : Heap),
      envOK sl rl = true → namesOK sl rl e = true →
      noMissing (sample n e sl rl cid h) := by
  intro n
  induction n with
  | zero => intro e sl rl cid h _ _; exact trivial
  | succ n ih =>
    intro e sl rl cid h hE hN
    cases e with
    | text t =>
      rw [sample_eq_text]
      cases hc : (h.getD cid defaultCtx).curr_exp_rule with
      | some r => simp only [hc]; exact noMissing_ok _
      | none => simp only [hc]; exact noMissing_ok _
    | alt items =>
      rw [sample_eq_alt]
      simp only [namesOK] at hN
      exact seqF_noMissing _ items
        (fun e2 he2 cid2 h2 => ih e2 sl rl cid2 h2 hE
          (namesOKL_mem sl rl items hN e2 he2)) _ _
    | grp items =>
      rw [sample_eq_grp]
      simp only [namesOK] at hN
      by_cases hemp : items.isEmpty
      · rw [if_pos hemp]
        exact trivial
      · rw [if_neg hemp]
        cases hp : samplePoolsF (fun e2 cid2 h2 => sample n e2 sl rl cid2 h2)
            items h.length (h ++ [h.getD cid defaultCtx]) with
        | error er =>
          have hn := poolsF_noMissing _ items
            (fun e2 he2 cid2 h2 => ih e2 sl rl cid2 h2 hE
              (namesOKL_mem sl rl items hN e2 he2)) h.length
            (h ++ [h.getD cid defaultCtx])
          rw [hp] at hn
          exact noMissing_error er hn
        | ok p =>
          obtain ⟨pools, h2⟩ := p
          exact noMissing_ok _
    | listRef nm =>
      rw [sample_eq_list]
      simp only [namesOK] at hN
      cases hlk : sl.lookup nm with
      | none => rw [hlk] at hN; simp at hN
      | some vals =>
        have hmem := lookup_mem nm sl vals hlk
        have hE2 := hE
        rw [envOK, Bool.and_eq_true] at hE2
        have hvals := (List.all_eq_true.1 hE2.1) (nm, vals) hmem
        simp only at hvals
        refine valuesF_noMissing _ nm vals ?_ _ _
        intro tv htv cid2 h2
        exact ih tv.text_in sl rl cid2 h2 hE
          ((List.all_eq_true.1 hvals) tv htv)
    | ruleRef nm =>
      rw [sample_eq_rule]
      simp only [namesOK] at hN
      cases hlk : rl.lookup nm with
      | none => rw [hlk] at hN; simp at hN
      | some body =>
        have hmem := lookup_mem nm rl body hlk
        have hE2 := hE
        rw [envOK, Bool.and_eq_true] at hE2
        have hbody := (List.all_eq_true.1 hE2.2) (nm, body) hmem
        simp only at hbody
        exact ih body sl rl h.length
          ((h ++ [h.getD cid defaultCtx]).set h.length
            ((h.getD cid defaultCtx).setCurr (some nm))) hE hbody

/-- C7: sampling a list reference whose name is not among the defined slot
lists fails with `MissingListError`; sampling a rule reference whose name is
not among the defined expansion rules fails with `MissingRuleError`; and
when every name referenced by the expression, by the slot-list input
sub-expressions and by the rule bodies is defined, no invocation of the
sampler (at any fuel) produces either error. -/
theorem missing_list_rule_errors :
    (∀ (n : Nat) (name : String) (sl : SlotLists) (rl : Rules) (cid : Nat)
        (h : Heap),
      sl.lookup name = none →
      sample (n + 1) (Expression.listRef name) sl rl cid h =
        .error (.missingList name)) ∧
    (∀ (n : Nat) (name : String) (sl : SlotLists) (rl : Rules) (cid : Nat)
        (h : Heap),
      rl.lookup name = none →
      sample (n + 1) (Expression.ruleRef name) sl rl cid h =
        .error (.missingRule name)) ∧
    (∀ (n : Nat) (e : Expression) (sl : SlotLists) (rl : Rules) (cid : Nat)
        (h : Heap),
      envOK sl rl = true → namesOK sl rl e = true →
      noMissing (sample n e sl rl cid h)) := by
  refine ⟨?_, ?_, sample_noMissing⟩
  · intro n name sl rl cid h hlk
    rw [sample_eq_list, hlk]
  · intro n name sl rl cid h hlk
    rw [sample_eq_rule, hlk]

/-- C7 witness: undefined list and rule names raise the corresponding
errors; a group referencing one defined list and one defined rule raises
neither. -/
theorem missing_list_rule_errors_inst :
    sample 1 (Expression.listRef "zzz") [] [] 0 [defaultCtx] =
      .error (.missingList "zzz") ∧
    sample 1 (Expression.ruleRef "www") [] [] 0 [defaultCtx] =
      .error (.missingRule "www") ∧
    noMissing (sample 6 (Expression.grp [Expression.listRef "l",
        Expression.ruleRef "r"])
      [("l", [⟨Expression.text "a", some "b"⟩])] [("r", Expression.text "c")]
      0 [defaultCtx]) :=
  ⟨missing_list_rule_errors.1 0 "zzz" [] [] 0 [defaultCtx] rfl,
   missing_list_rule_errors.2.1 0 "www" [] [] 0 [defaultCtx] rfl,
   missing_list_rule_errors.2.2 6
     (Expression.grp [Expression.listRef "l", Expression.ruleRef "r"])
     [("l", [⟨Expression.text "a", some "b"⟩])] [("r", Expression.text "c")]
     0 [defaultCtx] (by simp [envOK, namesOK, namesOKL])
     (by simp [namesOK, namesOKL])⟩

theorem HeapInvN_weaken (N M : Nat) (h h2 : Heap) (ys : List Yield)
    (hNM : N ≤ M) (hI : HeapInvN M h h2 ys) : HeapInvN N h h2 ys := by
  obtain ⟨h1, h2p, h3⟩ := hI
  refine ⟨h1, fun i hi => h2p i (lt_of_lt_of_le hi hNM), fun y hy => ?_⟩
  obtain ⟨ha, hb⟩ := h3 y hy
  exact ⟨le_trans hNM ha, hb⟩

theorem HeapInvN_trans (N : Nat) (h1 h2 h3 : Heap) (ys1 ys2 : List Yield)
    (hA : HeapInvN N h1 h2 ys1) (hB : HeapInvN N h2 h3 ys2) :
    HeapInvN N h1 h3 (ys1 ++ ys2) := by
  obtain ⟨a1, a2, a3⟩ := hA
  obtain ⟨b1, b2, b3⟩ := hB
  refine ⟨le_trans a1 b1, fun i hi => (b2 i hi).trans (a2 i hi), fun y hy => ?_⟩
  rcases List.mem_append.1 hy with hy | hy
  · obtain ⟨c1, c2⟩ := a3 y hy
    exact ⟨c1, lt_of_lt_of_le c2 b1⟩
  · exact b3 y hy

theorem getLast?_mem {α : Type} (l : List α) (a : α) (h : l.getLast? = some a) :
    a ∈ l := by
  induction l with
  | nil => cases h
  | cons x t ih =>
    cases t with
    | nil =>
      simp only [List.getLast?_singleton] at h
      injection h with h2
      subst h2
      exact List.mem_cons_self _ _
    | cons y t2 =>
      rw [List.getLast?_cons_cons] at h
      exact List.mem_cons_of_mem _ (ih h)

theorem foldl_heap_inv {β : Type} (N : Nat) (f : Heap → β → Heap)
    (l : List β)
    (hf : ∀ h b, b ∈ l → (f h b).length = h.length ∧
      ∀ i, i < N → (f h b).getD i defaultCtx = h.getD i defaultCtx) :
    ∀ h : Heap, (l.foldl f h).length = h.length ∧
      ∀ i, i < N → (l.foldl f h).getD i defaultCtx = h.getD i defaultCtx := by
  induction l with
  | nil => intro h; exact ⟨rfl, fun _ _ => rfl⟩
  | cons b t ih =>
    intro h
    rw [List.foldl_cons]
    obtain ⟨k1, k2⟩ := ih (fun h2 b2 hb2 => hf h2 b2 (List.mem_cons_of_mem _ hb2))
      (f h b)
    obtain ⟨m1, m2⟩ := hf h b (List.mem_cons_self _ _)
    exact ⟨k1.trans m1, fun i hi => (k2 i hi).trans (m2 i hi)⟩

theorem applyListWrites_inv (N : Nat) (name : String) (v : Option String)
    (ys : List Yield) (hys : ∀ y ∈ ys, N ≤ y.ctxId) (h : Heap) :
    (applyListWrites name v ys h).length = h.length ∧
      ∀ i, i < N →
        (applyListWrites name v ys h).getD i defaultCtx = h.getD i defaultCtx := by
  refine foldl_heap_inv N _ ys (fun h2 y hy => ⟨List.length_set _ _ _, ?_⟩) h
  intro i hi
  exact getD_set_ne _ _ _ _ _ (by have := hys y hy; omega)

theorem cartProd_mem_mem {α : Type} (ps : List (List α)) :
    ∀ c ∈ cartProd ps, ∀ y ∈ c, ∃ p ∈ ps, y ∈ p := by
  induction ps with
  | nil =>
    intro c hc y hy
    simp only [cartProd, List.mem_singleton] at hc
    subst hc
    cases hy
  | cons p ps ih =>
    intro c hc y hy
    simp only [cartProd, List.mem_flatMap, List.mem_map] at hc
    obtain ⟨x, hx, c2, hc2, rfl⟩ := hc
    rcases List.mem_cons.1 hy with rfl | hy2
    · exact ⟨p, List.mem_cons_self _ _, hx⟩
    · obtain ⟨p2, hp2, hyp2⟩ := ih c2 hc2 y hy2
      exact ⟨p2, List.mem_cons_of_mem _ hp2, hyp2⟩

theorem tagFirst_ctxIds (s nm : String) (v : Option String) (l : List Yield) :
    (tagFirst s nm v l).map Yield.ctxId = l.map Yield.ctxId := by
  cases l <;> simp [tagFirst, List.map_map, Function.comp_def]

theorem runCombos_inv (N : Nat) (cs : List (List Yield)) :
    ∀ h : Heap,
      (∀ c ∈ cs, ∀ y ∈ c, N ≤ y.ctxId ∧ y.ctxId < h.length) →
      (runCombos h cs).2.length = h.length ∧
      (∀ i, i < N →
        (runCombos h cs).2.getD i defaultCtx = h.getD i defaultCtx) ∧
      (∀ y ∈ (runCombos h cs).1, N ≤ y.ctxId ∧ y.ctxId < h.length) := by
  induction cs with
  | nil => intro h _; exact ⟨rfl, fun _ _ => rfl, by simp [runCombos]⟩
  | cons c cs ih =>
    intro h hb
    cases c with
    | nil =>
      simp only [runCombos]
      obtain ⟨k1, k2, k3⟩ := ih h (fun c2 hc2 => hb c2 (List.mem_cons_of_mem _ hc2))
      exact ⟨k1, k2, k3⟩
    | cons y0 ytl =>
      simp only [runCombos]
      obtain ⟨hy0N, hy0L⟩ := hb (y0 :: ytl) (List.mem_cons_self _ _) y0
        (List.mem_cons_self _ _)
      have hlset : (h.set y0.ctxId ((ytl.map
          (fun y => h.getD y.ctxId defaultCtx)).foldl Ctx.merge
          (h.getD y0.ctxId defaultCtx))).length = h.length :=
        List.length_set _ _ _
      obtain ⟨k1, k2, k3⟩ := ih _ (fun c2 hc2 y hy => by
        rw [hlset]
        exact hb c2 (List.mem_cons_of_mem _ hc2) y hy)
      refine ⟨k1.trans hlset, ?_, ?_⟩
      · intro i hi
        rw [k2 i hi, getD_set_ne _ _ _ _ _ (by omega)]
      · intro y hy
        rcases List.mem_cons.1 hy with rfl | hy2
        · exact ⟨hy0N, hy0L⟩
        · obtain ⟨m1, m2⟩ := k3 y hy2
          rw [hlset] at m2
          exact ⟨m1, m2⟩

theorem HeapInvN_append_base (N : Nat) (h : Heap) (v : Ctx)
    (hN : N ≤ h.length) : HeapInvN N h (h ++ [v]) [] :=
  ⟨by simp, fun i hi => List.getD_append _ _ _ _ (by omega), by simp⟩

theorem seqF_inv
    (go : Expression → Nat → Heap → Except SErr (List Yield × Heap))
    (hgo : ∀ e cid h ys h2 N, N ≤ List.length h → go e cid h = .ok (ys, h2) →
      HeapInvN N h h2 ys) :
    ∀ (items : List Expression) (N cid : Nat) (h : Heap) (ys : List Yield)
      (h2 : Heap), N ≤ h.length →
      sampleSeqF go items cid h = .ok (ys, h2) → HeapInvN N h h2 ys := by
  intro items
  induction items with
  | nil =>
    intro N cid h ys h2 hN hk
    simp only [sampleSeqF] at hk
    injection hk with hk2
    injection hk2 with hk3 hk4
    subst hk3; subst hk4
    exact ⟨le_refl _, fun _ _ => rfl, by simp⟩
  | cons e rest ih =>
    intro N cid h ys h2 hN hk
    simp only [sampleSeqF] at hk
    cases hg : go e cid h with
    | error er => rw [hg] at hk; exact Except.noConfusion hk
    | ok p =>
      obtain ⟨ys1, hx⟩ := p
      rw [hg] at hk
      cases hrest : sampleSeqF go rest cid hx with
      | error er => simp only [hrest] at hk; exact Except.noConfusion hk
      | ok p2 =>
        obtain ⟨ys2, hy⟩ := p2
        simp only [hrest] at hk
        injection hk with hk2
        injection hk2 with hk3 hk4
        subst hk3; subst hk4
        have A := hgo e cid h ys1 hx N hN hg
        have B := ih N cid hx ys2 hy (le_trans hN A.1) hrest
        exact HeapInvN_trans N h hx hy ys1 ys2 A B

theorem poolsF_inv
    (go : Expression → Nat → Heap → Except SErr (List Yield × Heap))
    (hgo : ∀ e cid h ys h2 N, N ≤ List.length h → go e cid h = .ok (ys, h2) →
      HeapInvN N h h2 ys) :
    ∀ (items : List Expression) (N cid : Nat) (h : Heap)
      (ps : List (List Yield)) (h2 : Heap), N ≤ h.length →
      samplePoolsF go items cid h = .ok (ps, h2) →
      h.length ≤ h2.length ∧
      (∀ i, i < N → h2.getD i defaultCtx = h.getD i defaultCtx) ∧
      (∀ p ∈ ps, ∀ y ∈ p, N ≤ y.ctxId ∧ y.ctxId < h2.length) := by
  intro items
  induction items with
  | nil =>
    intro N cid h ps h2 hN hk
    simp only [samplePoolsF] at hk
    injection hk with hk2
    injection hk2 with hk3 hk4
    subst hk3; subst hk4
    exact ⟨le_refl _, fun _ _ => rfl, by simp⟩
  | cons e rest ih =>
    intro N cid h ps h2 hN hk
    simp only [samplePoolsF] at hk
    cases hg : go e cid h with
    | error er => rw [hg] at hk; exact Except.noConfusion hk
    | ok p =>
      obtain ⟨ys1, hx⟩ := p
      rw [hg] at hk
      cases hrest : samplePoolsF go rest cid hx with
      | error er => simp only [hrest] at hk; exact Except.noConfusion hk
      | ok p2 =>
        obtain ⟨ps2, hy⟩ := p2
        simp only [hrest] at hk
        injection hk with hk2
        injection hk2 with hk3 hk4
        subst hk3; subst hk4
        have A := hgo e cid h ys1 hx N hN hg
        obtain ⟨B1, B2, B3⟩ := ih N cid hx ps2 hy (le_trans hN A.1) hrest
        refine ⟨le_trans A.1 B1, fun i hi => (B2 i hi).trans (A.2.1 i hi), ?_⟩
        intro p hp y hy2
        rcases List.mem_cons.1 hp with rfl | hp2
        · obtain ⟨m1, m2⟩ := A.2.2 y hy2
          exact ⟨m1, lt_of_lt_of_le m2 B1⟩
        · exact B3 p hp2 y hy2

theorem valuesF_inv
    (go : Expression → Nat → Heap → Except SErr (List Yield × Heap))
    (name : String)
    (hgo : ∀ e cid h ys h2 N, N ≤ List.length h → go e cid h = .ok (ys, h2) →
      HeapInvN N h h2 ys) :
    ∀ (vals : List TextSlotValue) (N cur : Nat) (h : Heap) (ys : List Yield)
      (h2 : Heap), N ≤ h.length → N ≤ cur →
      runValuesF go name vals cur h = .ok (ys, h2) → HeapInvN N h h2 ys := by
  intro vals
  induction vals with
  | nil =>
    intro N cur h ys h2 hN hc hk
    simp only [runValuesF] at hk
    injection hk with hk2
    injection hk2 with hk3 hk4
    subst hk3; subst hk4
    exact ⟨le_refl _, fun _ _ => rfl, by simp⟩
  | cons tv rest ih =>
    intro N cur h ys h2 hN hc hk
    by_cases htr : pyTruthyOS tv.value_out
    · simp only [runValuesF, htr, if_true] at hk
      cases hg : go tv.text_in cur h with
      | error er => rw [hg] at hk; exact Except.noConfusion hk
      | ok p =>
        obtain ⟨ys1, hx⟩ := p
        rw [hg] at hk
        have A := hgo tv.text_in cur h ys1 hx N hN hg
        have hids : ∀ y ∈ ys1, N ≤ y.ctxId := fun y hy => (A.2.2 y hy).1
        obtain ⟨W1, W2⟩ :=
          applyListWrites_inv N name tv.value_out ys1 hids hx
        cases hrest : runValuesF go name rest
            (match ys1.getLast? with
             | some y => y.ctxId
             | none => cur)
            (applyListWrites name tv.value_out ys1 hx) with
        | error er => simp only [hrest] at hk; exact Except.noConfusion hk
        | ok p2 =>
          obtain ⟨ys3, h3⟩ := p2
          simp only [hrest] at hk
          injection hk with hk2
          injection hk2 with hk3 hk4
          subst hk3; subst hk4
          have hcur2 : N ≤ (match ys1.getLast? with
              | some y => y.ctxId
              | none => cur) := by
            cases hl : ys1.getLast? with
            | some y => exact hids y (getLast?_mem ys1 y hl)
            | none => exact hc
          have B := ih N _ _ ys3 h3
            (by rw [W1]; exact le_trans hN A.1) hcur2 hrest
          refine ⟨?_, ?_, ?_⟩
          · have := B.1
            rw [W1] at this
            exact le_trans A.1 this
          · intro i hi
            rw [B.2.1 i hi, W2 i hi, A.2.1 i hi]
          · intro y hy
            rcases List.mem_append.1 hy with hy | hy
            · have hcx : y.ctxId ∈ ys1.map Yield.ctxId := by
                rw [← tagFirst_ctxIds (tv.value_out.getD "") name tv.value_out]
                exact List.mem_map_of_mem Yield.ctxId hy
              obtain ⟨y2, hy2, hcxe⟩ := List.mem_map.1 hcx
              obtain ⟨m1, m2⟩ := A.2.2 y2 hy2
              have hlen : hx.length ≤ h3.length := by
                have := B.1
                rwa [W1] at this
              rw [hcxe] at m1 m2
              exact ⟨m1, lt_of_lt_of_le m2 hlen⟩
            · exact B.2.2 y hy
    · have htr2 : pyTruthyOS tv.value_out = false := by simpa using htr
      simp only [runValuesF, htr2, Bool.false_eq_true, if_false] at hk
      cases hg : go tv.text_in cur
          (h.set cur ((h.getD cur defaultCtx).setList name tv.value_out)) with
      | error er => rw [hg] at hk; exact Except.noConfusion hk
      | ok p =>
        obtain ⟨ys1, hx⟩ := p
        rw [hg] at hk
        have hsetlen : (h.set cur ((h.getD cur defaultCtx).setList name
            tv.value_out)).length = h.length := List.length_set _ _ _
        have A := hgo tv.text_in cur _ ys1 hx N (by rw [hsetlen]; exact hN) hg
        cases hrest : runValuesF go name rest cur hx with
        | error er => simp only [hrest] at hk; exact Except.noConfusion hk
        | ok p2 =>
          obtain ⟨ys3, h3⟩ := p2
          simp only [hrest] at hk
          injection hk with hk2
          injection hk2 with hk3 hk4
          subst hk3; subst hk4
          have hxlen : h.length ≤ hx.length := by
            have := A.1
            rwa [hsetlen] at this
          have B := ih N cur hx ys3 h3 (le_trans hN hxlen) hc hrest
          refine ⟨?_, ?_, ?_⟩
          · exact le_trans hxlen B.1
          · intro i hi
            rw [B.2.1 i hi, A.2.1 i hi,
              getD_set_ne _ _ _ _ _ (by omega)]
          · intro y hy
            rcases List.mem_append.1 hy with hy | hy
            · obtain ⟨m1, m2⟩ := A.2.2 y hy
              exact ⟨m1, lt_of_lt_of_le m2 B.1⟩
            · exact B.2.2 y hy

theorem sample_inv :
    ∀ (n : Nat) (e : Expression) (sl : SlotLists) (rl : Rules) (cid : Nat)
      (h : Heap) (ys : List Yield) (h2 : Heap) (N : Nat),
      N ≤ h.length → sample n e sl rl cid h = .ok (ys, h2) →
      HeapInvN N h h2 ys := by
  intro n
  induction n with
  | zero =>
    intro e sl rl cid h ys h2 N hN hk
    rw [sample_eq_zero] at hk
    exact Except.noConfusion hk
  | succ n ih =>
    intro e sl rl cid h ys h2 N hN hk
    have hgo : ∀ (e2 : Expression) (cid2 : Nat) (h3 : Heap) (ys2 : List Yield)
        (h4 : Heap) (N2 : Nat), N2 ≤ List.length h3 →
        sample n e2 sl rl cid2 h3 = .ok (ys2, h4) → HeapInvN N2 h3 h4 ys2 :=
      fun e2 cid2 h3 ys2 h4 N2 hN2 hk2 => ih e2 sl rl cid2 h3 ys2 h4 N2 hN2 hk2
    have hN1 : N ≤ (h ++ [h.getD cid defaultCtx]).length := by
      simp only [List.length_append, List.length_singleton]
      omega
    cases e with
    | text t =>
      rw [sample_eq_text] at hk
      cases hc : (h.getD cid defaultCtx).curr_exp_rule with
      | some r =>
        simp only [hc] at hk
        injection hk with hk2
        injection hk2 with hk3 hk4
        subst hk3; subst hk4
        refine ⟨?_, ?_, ?_⟩
        · simp only [List.length_set, List.length_append, List.length_singleton]
          omega
        · intro i hi
          rw [getD_set_ne _ _ _ _ _ (by omega),
            List.getD_append _ _ _ _ (by omega)]
        · intro y hy
          simp only [List.mem_singleton] at hy
          subst hy
          simp only [List.length_set, List.length_append, List.length_singleton]
          omega
      | none =>
        simp only [hc] at hk
        injection hk with hk2
        injection hk2 with hk3 hk4
        subst hk3; subst hk4
        refine ⟨?_, ?_, ?_⟩
        · simp only [List.length_append, List.length_singleton]
          omega
        · intro i hi
          rw [List.getD_append _ _ _ _ (by omega)]
        · intro y hy
          simp only [List.mem_singleton] at hy
          subst hy
          simp only [List.length_append, List.length_singleton]
          omega
    | alt items =>
      rw [sample_eq_alt] at hk
      have A := seqF_inv _ hgo items N h.length
        (h ++ [h.getD cid defaultCtx]) ys h2 hN1 hk
      have base := HeapInvN_append_base N h (h.getD cid defaultCtx) hN
      simpa using HeapInvN_trans N h _ h2 [] ys base A
    | grp items =>
      rw [sample_eq_grp] at hk
      by_cases hemp : items.isEmpty
      · rw [if_pos hemp] at hk
        exact Except.noConfusion hk
      · rw [if_neg hemp] at hk
        cases hp : samplePoolsF (fun e2 cid2 h3 => sample n e2 sl rl cid2 h3)
            items h.length (h ++ [h.getD cid defaultCtx]) with
        | error er =>
          rw [hp] at hk
          exact Except.noConfusion hk
        | ok p =>
          obtain ⟨pools, hx⟩ := p
          rw [hp] at hk
          injection hk with hk2
          obtain ⟨P1, P2, P3⟩ := poolsF_inv _ hgo items N h.length
            (h ++ [h.getD cid defaultCtx]) pools hx hN1 hp
          have hbound : ∀ c ∈ cartProd pools, ∀ y ∈ c,
              N ≤ y.ctxId ∧ y.ctxId < hx.length := by
            intro c hc y hy
            obtain ⟨p2, hp2, hyp2⟩ := cartProd_mem_mem pools c hc y hy
            exact P3 p2 hp2 y hyp2
          obtain ⟨R1, R2, R3⟩ := runCombos_inv N (cartProd pools) hx hbound
          have hys : ys = (runCombos hx (cartProd pools)).1 :=
            (congrArg Prod.fst hk2).symm
          have hh2 : h2 = (runCombos hx (cartProd pools)).2 :=
            (congrArg Prod.snd hk2).symm
          refine ⟨?_, ?_, ?_⟩
          · rw [hh2, R1]
            calc h.length ≤ (h ++ [h.getD cid defaultCtx]).length := by
                  simp only [List.length_append, List.length_singleton]; omega
              _ ≤ hx.length := P1
          · intro i hi
            rw [hh2, R2 i hi, P2 i hi,
              List.getD_append _ _ _ _ (by omega)]
          · intro y hy
            rw [hys] at hy
            obtain ⟨m1, m2⟩ := R3 y hy
            rw [hh2, R1]
            exact ⟨m1, m2⟩
    | listRef nm =>
      rw [sample_eq_list] at hk
      cases hlk : sl.lookup nm with
      | none =>
        rw [hlk] at hk
        exact Except.noConfusion hk
      | some vals =>
        rw [hlk] at hk
        have A := valuesF_inv _ nm hgo vals N h.length
          (h ++ [h.getD cid defaultCtx]) ys h2 hN1 hN hk
        have base := HeapInvN_append_base N h (h.getD cid defaultCtx) hN
        simpa using HeapInvN_trans N h _ h2 [] ys base A
    | ruleRef nm =>
      rw [sample_eq_rule] at hk
      cases hlk : rl.lookup nm with
      | none =>
        rw [hlk] at hk
        exact Except.noConfusion hk
      | some body =>
        rw [hlk] at hk
        have hsetlen : ((h ++ [h.getD cid defaultCtx]).set h.length
            ((h.getD cid defaultCtx).setCurr (some nm))).length =
            h.length + 1 := by
          simp only [List.length_set, List.length_append, List.length_singleton]
        have A := ih body sl rl h.length _ ys h2 N
          (by rw [hsetlen]; omega) hk
        have base : HeapInvN N h ((h ++ [h.getD cid defaultCtx]).set h.length
            ((h.getD cid defaultCtx).setCurr (some nm))) [] := by
          refine ⟨by rw [hsetlen]; omega, ?_, by simp⟩
          intro i hi
          rw [getD_set_ne _ _ _ _ _ (by omega),
            List.getD_append _ _ _ _ (by omega)]
        simpa using HeapInvN_trans N h _ h2 [] ys base A

/-- C9: no invocation of the sampler mutates any pre-existing context
object: every context cell of the incoming heap keeps its value, and every
yielded triple references a freshly allocated object.  In particular the
module-level default substitution context (the object passed by every
top-level invocation) is never mutated, so the sampler is a pure function of
its arguments and re-invoking it with the same expression, slot lists and
expansion rules deterministically produces the identical finite sequence of
triples. -/
theorem sampler_preserves_preexisting_contexts
    (n : Nat) (e : Expression) (sl : SlotLists) (rl : Rules) (cid : Nat)
    (h : Heap) (ys : List Yield) (h2 : Heap)
    (hk : sample n e sl rl cid h = .ok (ys, h2)) :
    (∀ i, i < h.length → h2.getD i defaultCtx = h.getD i defaultCtx) ∧
    (∀ y ∈ ys, h.length ≤ y.ctxId) := by
  obtain ⟨-, hpre, hids⟩ :=
    sample_inv n e sl rl cid h ys h2 h.length (le_refl _) hk
  exact ⟨hpre, fun y hy => (hids y hy).1⟩

/-- C9 witness: sampling a literal from the default context leaves the
original heap cell unchanged and references only the fresh copy. -/
theorem sampler_preserves_preexisting_contexts_inst :
    (∀ i, i < 1 →
      ([defaultCtx, defaultCtx] : Heap).getD i defaultCtx =
        ([defaultCtx] : Heap).getD i defaultCtx) ∧
    (∀ y ∈ ([⟨"a", some "a", 1, defaultCtx⟩] : List Yield), 1 ≤ y.ctxId) :=
  sampler_preserves_preexisting_contexts 2 (Expression.text "a") [] [] 0
    [defaultCtx] [⟨"a", some "a", 1, defaultCtx⟩] [defaultCtx, defaultCtx]
    (by decide)
